import Mathlib

/-! Verification of the `rb` ring-buffer library: a shallow embedding of
`ring_buffer.go` and `ring_buffers.go` together with proofs of the
documented properties. Go slices become `List`, the `int` fields of the
struct stay in their reachable ranges and are carried as `Nat`, while the
transient negative cursor arithmetic inside each method is carried out in
`Int` exactly as the source writes it; Go's `var zero T` is `default`
from `Inhabited`. Panics are modelled as `Option.none` where a claim
depends on them. -/

namespace RB

/-- State of `RingBuffer[T]` (src/ring_buffer.go, lines 11-16): backing
slice `buf` (fully allocated at construction), next-write index `cur`,
and count of live values `len`. The mutex only serializes access and has
no sequential meaning, so it is not part of the state. -/
structure RingBuffer (T : Type) where
  buf : List T
  cur : Nat
  len : Nat
deriving DecidableEq

/-- Constructor `NewRingBuffer` (src/ring_buffer.go, lines 20-24): an empty buffer
whose slice is pre-allocated with `sz` zero values. -/
def NewRingBuffer {T : Type} [Inhabited T] (sz : Nat) : RingBuffer T :=
  ⟨List.replicate sz default, 0, 0⟩

/-- Method `RingBuffer.Add` (src/ring_buffer.go, lines 98-129). Returns the new
state together with the `(dropped, ok)` pair of the source. -/
def RingBuffer.Add {T : Type} [Inhabited T] (rb : RingBuffer T) (val : T) :
    RingBuffer T × T × Bool :=
  if rb.buf.length = 0 then (rb, default, false)
  else
    let dob : T × Bool :=
      if rb.buf.length ≤ rb.len then (rb.buf.getD rb.cur default, true)
      else (default, false)
    let buf := rb.buf.set rb.cur val
    let len := if rb.len < rb.buf.length then rb.len + 1 else rb.len
    let cur := if rb.buf.length ≤ rb.cur + 1 then rb.cur + 1 - rb.buf.length else rb.cur + 1
    (⟨buf, cur, len⟩, dob.1, dob.2)

/-- The read of iteration `i` of the loop body of `RingBuffer.Walk`
(src/ring_buffer.go, lines 139-149): index `rb.cur - 1 - i`, wrapped once
by `len(rb.buf)` when negative. -/
def RingBuffer.readAt {T : Type} [Inhabited T] (rb : RingBuffer T) (i : Nat) : T :=
  let c : Int := (rb.cur : Int) - 1 - (i : Int)
  let c : Int := if c < 0 then c + rb.buf.length else c
  rb.buf.getD c.toNat default

/-- The sequence of values visited by `RingBuffer.Walk`, newest first:
iteration `i` of the loop reads `rb.readAt i`, for `i` ranging over
`0, ..., rb.len - 1`. -/
def RingBuffer.toList {T : Type} [Inhabited T] (rb : RingBuffer T) : List T :=
  (List.range rb.len).map rb.readAt

/-- The visit/short-circuit control flow of `RingBuffer.Walk`: apply `fn`
to each value in order, stopping at (and returning) the first `some`
error. -/
def walkSeq {T E : Type} (fn : T → Option E) : List T → Option E
  | [] => none
  | v :: vs =>
    match fn v with
    | some e => some e
    | none => walkSeq fn vs

/-- Method `RingBuffer.Walk` (src/ring_buffer.go, lines 134-155): visit up to
`rb.len` values, newest to oldest, short-circuiting on the first error
returned by `fn` (Go's `error` is `Option E`). -/
def RingBuffer.Walk {T E : Type} [Inhabited T] (rb : RingBuffer T) (fn : T → Option E) :
    Option E :=
  walkSeq fn rb.toList

/-- Method `RingBuffer.Overview` (src/ring_buffer.go, lines 159-183): newest
value, oldest value, and count. -/
def RingBuffer.Overview {T : Type} [Inhabited T] (rb : RingBuffer T) : T × T × Nat :=
  if rb.len = 0 then (default, default, 0)
  else
    let headidx : Int := (rb.cur : Int) - 1
    let headidx : Int := if headidx < 0 then headidx + rb.buf.length else headidx
    let tailidx : Int := headidx - ((rb.len : Int) - 1)
    let tailidx : Int := if tailidx < 0 then tailidx + rb.buf.length else tailidx
    (rb.buf.getD headidx.toNat default, rb.buf.getD tailidx.toNat default, rb.len)

/-- The loop inside `RingBuffer.Copy` (src/ring_buffer.go, lines 187-198):
walk the values newest first, writing into `dst` at `index` and
incrementing, and short-circuit with `io.EOF` (swallowed by `Copy`) once
`index` reaches `len(dst)`. Returns the updated `dst` and `index`. -/
def copyLoop {T : Type} : List T → List T → Nat → List T × Nat
  | [], dst, index => (dst, index)
  | v :: vs, dst, index =>
    if dst.length ≤ index then (dst, index)
    else copyLoop vs (dst.set index v) (index + 1)

/-- Method `RingBuffer.Copy` (src/ring_buffer.go, lines 187-198): fill `dst`
newest first via `Walk`, returning the written slice and the count; the
`error` result of the source is always `nil`. -/
def RingBuffer.Copy {T : Type} [Inhabited T] (rb : RingBuffer T) (dst : List T) :
    List T × Nat :=
  copyLoop rb.toList dst 0

/-- Method `RingBuffer.Take` (src/ring_buffer.go, lines 203-210): allocate
`make([]T, n)` — which panics when `n < 0`, modelled as `none` — copy into
it, and return the prefix of length equal to the number copied. -/
def RingBuffer.Take {T : Type} [Inhabited T] (rb : RingBuffer T) (n : Int) :
    Option (List T) :=
  if n < 0 then none
  else
    let dst := List.replicate n.toNat default
    let res := rb.Copy dst
    some (res.1.take res.2)

/-- The first loop of `RingBuffer.Resize` (src/ring_buffer.go, lines
57-66): with `k` iterations remaining the write cursor is `k - 1`; copy
`old[rdcur]` to the new buffer at the write cursor, then step `rdcur`
backwards with a wrap by `len(old)`. Returns the filled buffer and the
final `rdcur`. -/
def copyBack {T : Type} [Inhabited T] (old : List T) : Nat → Int → List T → List T × Int
  | 0, rdcur, buf => (buf, rdcur)
  | k + 1, rdcur, buf =>
    let buf := buf.set k (old.getD rdcur.toNat default)
    let rdcur := rdcur - 1
    let rdcur := if rdcur < 0 then rdcur + old.length else rdcur
    copyBack old k rdcur buf

/-- The second loop of `RingBuffer.Resize` (src/ring_buffer.go, lines
70-77): append `old[rdcur]` to `dropped` `k` times, stepping `rdcur`
backwards with a wrap by `len(old)` each time. -/
def dropLoop {T : Type} [Inhabited T] (old : List T) : Nat → Int → List T → List T × Int
  | 0, rdcur, acc => (acc, rdcur)
  | k + 1, rdcur, acc =>
    let acc := acc ++ [old.getD rdcur.toNat default]
    let rdcur := rdcur - 1
    let rdcur := if rdcur < 0 then rdcur + old.length else rdcur
    dropLoop old k rdcur acc

/-- Method `RingBuffer.Resize` (src/ring_buffer.go, lines 29-93). `sz ≤ 0` is a
no-op returning `nil` dropped values (modelled as `[]`). Otherwise copy
the `fill = min(rb.len, sz)` most recent values into a fresh buffer of
length `sz`, collect the `rb.len - sz` dropped values, and set the write
cursor to `fill`, wrapped to `0` when the new buffer is exactly full.
Note the initial read cursor wraps by `rb.len`, not `len(rb.buf)`. -/
def RingBuffer.Resize {T : Type} [Inhabited T] (rb : RingBuffer T) (sz : Int) :
    RingBuffer T × List T :=
  if sz ≤ 0 then (rb, [])
  else
    let szn := sz.toNat
    let fill := if rb.len > szn then szn else rb.len
    let rdcur : Int := (rb.cur : Int) - 1
    let rdcur : Int := if rdcur < 0 then rdcur + rb.len else rdcur
    let cb := copyBack rb.buf fill rdcur (List.replicate szn default)
    let dl := dropLoop rb.buf (rb.len - szn) cb.2 []
    let cur := if fill ≥ szn then fill - szn else fill
    (⟨cb.1, cur, fill⟩, dl.1)

/-- State of `RingBuffers[T]` (src/unnamed/part_000, the current revision
of ring_buffers.go): the default size `sz` and the map from category to
ring buffer. Since handle identity matters to the spec, the map is split
into an association list of keys to cells and a `heap` of cells; a Go
`*RingBuffer[T]` is a cell index. -/
structure RingBuffers (T : Type) where
  sz : Nat
  bufs : List (String × Nat)
  heap : List (RingBuffer T)
deriving DecidableEq

/-- Constructor `NewRingBuffers` (src/unnamed/part_000, lines 14-19): an empty set of
ring buffers with default size `max(1, sz)`. -/
def NewRingBuffers {T : Type} [Inhabited T] (sz : Int) : RingBuffers T :=
  ⟨(max 1 sz).toNat, [], []⟩

/-- Lookup of the map entry for a category (the `rb, ok := rbs.bufs[category]`
read). -/
def RingBuffers.lookup {T : Type} (rbs : RingBuffers T) (category : String) : Option Nat :=
  (rbs.bufs.find? (fun p => p.1 == category)).map (fun p => p.2)

/-- Method `RingBuffers.GetOrCreate` (src/unnamed/part_000, lines 23-34): return
the existing cell for `category`, or allocate a fresh `NewRingBuffer rbs.sz`
cell and record it under `category`. -/
def RingBuffers.GetOrCreate {T : Type} [Inhabited T] (rbs : RingBuffers T)
    (category : String) : RingBuffers T × Nat :=
  match rbs.lookup category with
  | some id => (rbs, id)
  | none =>
    let id := rbs.heap.length
    ({ rbs with bufs := rbs.bufs ++ [(category, id)],
                heap := rbs.heap ++ [NewRingBuffer rbs.sz] }, id)

/-- Dereference a handle: the buffer stored in the cell. -/
def RingBuffers.deref {T : Type} [Inhabited T] (rbs : RingBuffers T) (id : Nat) :
    RingBuffer T :=
  rbs.heap.getD id (NewRingBuffer 0)

/-- An `Add` performed through a handle returned by `GetOrCreate`: mutate the
cell the handle points to. -/
def RingBuffers.addAt {T : Type} [Inhabited T] (rbs : RingBuffers T) (id : Nat)
    (val : T) : RingBuffers T :=
  { rbs with heap := rbs.heap.set id ((rbs.deref id).Add val).1 }

/-- Method `RingBuffers.Resize` (src/unnamed/part_000, lines 52-67): `sz ≤ 0` is
a no-op returning a `nil` map (modelled as `none`); otherwise store the
new default size and resize every buffer in place, collecting the dropped
values per category. -/
def RingBuffers.Resize {T : Type} [Inhabited T] (rbs : RingBuffers T) (sz : Int) :
    RingBuffers T × Option (List (String × List T)) :=
  if sz ≤ 0 then (rbs, none)
  else
    let heap := rbs.heap.map (fun rb => (rb.Resize sz).1)
    let dropped := rbs.bufs.map (fun p => (p.1, ((rbs.deref p.2).Resize sz).2))
    ({ sz := sz.toNat, bufs := rbs.bufs, heap := heap }, some dropped)

/-- Fold a sequence of `Add` calls over a buffer, keeping only the state. -/
def addAll {T : Type} [Inhabited T] (rb : RingBuffer T) (vs : List T) : RingBuffer T :=
  vs.foldl (fun b v => (b.Add v).1) rb

/-- The canonical logical read index: `rdIdx rb i` is the physical index
holding the `i`-th most recent value (`i = 0` is newest). -/
def RingBuffer.rdIdx {T : Type} (rb : RingBuffer T) (i : Nat) : Nat :=
  (rb.cur + rb.buf.length - 1 - i) % rb.buf.length

/-- One backwards step of a reduced physical index, as performed by the
read-cursor updates inside `Resize`. -/
def stepBack (n m : Nat) : Nat := (m + n - 1) % n

/-- Structural well-formedness of a buffer state: the count is bounded by
the capacity, the cursor equals the count until the buffer first fills,
and the cursor stays inside the slice. Every state the API can produce
satisfies this. -/
def RingBuffer.WF {T : Type} (rb : RingBuffer T) : Prop :=
  rb.len ≤ rb.buf.length ∧
  (rb.len < rb.buf.length → rb.cur = rb.len) ∧
  (rb.buf.length = 0 → rb.cur = 0) ∧
  (0 < rb.buf.length → rb.cur < rb.buf.length)

/-- Buffer states reachable through the public constructors and mutators
of src/ring_buffer.go. -/
inductive Reachable {T : Type} [Inhabited T] : RingBuffer T → Prop where
  | new (sz : Nat) : Reachable (NewRingBuffer sz)
  | add {rb : RingBuffer T} (v : T) : Reachable rb → Reachable (rb.Add v).1
  | resize {rb : RingBuffer T} (sz : Int) : Reachable rb → Reachable (rb.Resize sz).1

/-- Registry well-formedness: every recorded handle points into the heap. -/
def RingBuffers.WFR {T : Type} (rbs : RingBuffers T) : Prop :=
  ∀ p ∈ rbs.bufs, p.2 < rbs.heap.length

end RB

namespace RB

/-- A single conditional wrap of `c - s` agrees with `(c + n - s) % n`
whenever `c < n` and `s ≤ n`. -/
lemma wrap_sub_eq_mod (n c s : Nat) (hc : c < n) (hs : s ≤ n) :
    (if (c : Int) - s < 0 then (c : Int) - s + n else (c : Int) - s).toNat
      = (c + n - s) % n := by
  split
  · rename_i h
    rw [Nat.mod_eq_of_lt (by omega)]
    omega
  · rename_i h
    have he : c + n - s = (c - s) + n := by omega
    rw [he, Nat.add_mod_right, Nat.mod_eq_of_lt (by omega)]
    omega

/-- The cursor advance of `Add` agrees with `(c + 1) % n`. -/
lemma incWrap_eq_mod (n c : Nat) (hc : c < n) :
    (if n ≤ c + 1 then c + 1 - n else c + 1) = (c + 1) % n := by
  split
  · rename_i h
    have he : c + 1 = n := by omega
    rw [he, Nat.mod_self]
    omega
  · rename_i h
    rw [Nat.mod_eq_of_lt (by omega)]

/-- Stepping a reduced residue backwards by one: `(a % n + n - 1) % n`
equals `(a - 1) % n` for positive `a`. -/
lemma mod_step_back (n a : Nat) (hpos : 0 < n) (ha : 1 ≤ a) :
    (a % n + n - 1) % n = (a - 1) % n := by
  obtain ⟨p, hp⟩ : ∃ p, p = n * (a / n) := ⟨_, rfl⟩
  have hdm : p + a % n = a := by rw [hp]; exact Nat.div_add_mod a n
  have hlt : a % n < n := Nat.mod_lt _ hpos
  rcases Nat.eq_zero_or_pos (a % n) with h0 | h1
  · obtain ⟨q, rfl⟩ : n ∣ a := Nat.dvd_of_mod_eq_zero h0
    rcases Nat.eq_zero_or_pos q with rfl | hq1
    · simp at ha
    · have he : n * q = n * (q - 1) + n := by
        have h5 : q = (q - 1) + 1 := by omega
        calc n * q = n * ((q - 1) + 1) := by rw [← h5]
        _ = n * (q - 1) + n := Nat.mul_succ n (q - 1)
      have h6 : n * q - 1 = n * (q - 1) + (n - 1) := by omega
      rw [Nat.mul_mod_right, Nat.mod_eq_of_lt (show 0 + n - 1 < n by omega), h6,
        Nat.mul_add_mod, Nat.mod_eq_of_lt (show n - 1 < n by omega)]
      omega
  · have h2 : a % n + n - 1 = (a % n - 1) + n := by omega
    rw [h2, Nat.add_mod_right]
    have h3 : a - 1 = p + (a % n - 1) := by omega
    rw [h3, hp, Nat.mul_add_mod]

/-- Adding a nonzero offset `d < n` moves a reduced residue. -/
lemma add_mod_ne_self (n c d : Nat) (hc : c < n) (hd1 : 0 < d) (hd2 : d < n) :
    (c + d) % n ≠ c := by
  rcases Nat.lt_or_ge (c + d) n with h | h
  · rw [Nat.mod_eq_of_lt h]
    omega
  · have he : c + d = (c + d - n) + n := by omega
    rw [he, Nat.add_mod_right, Nat.mod_eq_of_lt (by omega)]
    omega

lemma getD_append_self {α : Type} (l : List α) (x d : α) :
    (l ++ [x]).getD l.length d = x := by
  induction l with
  | nil => rfl
  | cons a t ih => simpa using ih

lemma drop_set_cons {α : Type} (l : List α) (k : Nat) (x : α) (h : k < l.length) :
    (l.set k x).drop k = x :: l.drop (k + 1) := by
  induction l generalizing k with
  | nil => simp at h
  | cons a t ih =>
    cases k with
    | zero => simp
    | succ m =>
      simp only [List.set_cons_succ, List.drop_succ_cons]
      exact ih m (by simpa using h)

lemma getLastD_eq_getD {α : Type} (l : List α) (d : α) (h : 0 < l.length) :
    l.getLastD d = l.getD (l.length - 1) d := by
  induction l generalizing d with
  | nil => simp at h
  | cons a t ih =>
    cases t with
    | nil => rfl
    | cons b m =>
      rw [List.getLastD_cons]
      simpa using ih (d := a) (by simp)

lemma headD_eq_getD {α : Type} (l : List α) (d : α) :
    l.headD d = l.getD 0 d := by
  cases l <;> rfl

variable {T : Type} [Inhabited T]

@[simp] lemma toList_length (rb : RingBuffer T) : rb.toList.length = rb.len := by
  simp [RingBuffer.toList]

lemma toList_getD (rb : RingBuffer T) (i : Nat) (hi : i < rb.len) :
    rb.toList.getD i default = rb.readAt i := by
  have hlen : i < rb.toList.length := by simpa using hi
  rw [List.getD_eq_getElem _ _ hlen]
  simp [RingBuffer.toList]

/-- On a state whose cursor is inside the slice, the `Walk` read of
iteration `i` is the slice entry at the canonical index `rdIdx i`. -/
lemma readAt_eq_rdIdx (rb : RingBuffer T) (hc : rb.cur < rb.buf.length)
    (i : Nat) (hi : i < rb.buf.length) :
    rb.readAt i = rb.buf.getD (rb.rdIdx i) default := by
  have h := wrap_sub_eq_mod rb.buf.length rb.cur (1 + i) hc (by omega)
  have he : ((rb.cur : Int) - 1 - i) = (rb.cur : Int) - (1 + i : Nat) := by
    push_cast
    ring
  have he2 : rb.rdIdx i = (rb.cur + rb.buf.length - (1 + i)) % rb.buf.length := by
    unfold RingBuffer.rdIdx
    congr 1
    omega
  rw [RingBuffer.readAt, he2, ← h, he]

lemma rdIdx_lt (rb : RingBuffer T) (hpos : 0 < rb.buf.length) (i : Nat) :
    rb.rdIdx i < rb.buf.length :=
  Nat.mod_lt _ hpos

end RB

namespace RB

variable {T : Type} [Inhabited T]

lemma rdIdx_shift (n c j : Nat) (hc : c < n) (hj : j + 1 < n) :
    ((c + 1) % n + n - 1 - (j + 1)) % n = (c + n - 1 - j) % n := by
  rcases Nat.lt_or_ge (c + 1) n with h | h
  · rw [Nat.mod_eq_of_lt h]
    congr 1
    omega
  · have hc1 : c + 1 = n := by omega
    rw [hc1, Nat.mod_self]
    have e1 : 0 + n - 1 - (j + 1) = n - 2 - j := by omega
    have e2 : c + n - 1 - j = (n - 2 - j) + n := by omega
    rw [e1, e2, Nat.add_mod_right, Nat.mod_eq_of_lt (by omega)]

lemma rdIdx_inc_zero (n c : Nat) (hpos : 0 < n) (hc : c < n) :
    ((c + 1) % n + n - 1 - 0) % n = c := by
  have h := mod_step_back n (c + 1) hpos (by omega)
  have e : (c + 1) % n + n - 1 - 0 = (c + 1) % n + n - 1 := by omega
  rw [e, h, Nat.add_sub_cancel, Nat.mod_eq_of_lt hc]

lemma rdIdx_ne_cur (rb : RingBuffer T) (j : Nat) (hc : rb.cur < rb.buf.length)
    (hj : j + 1 < rb.buf.length) : rb.rdIdx j ≠ rb.cur := by
  unfold RingBuffer.rdIdx
  have he : rb.cur + rb.buf.length - 1 - j = rb.cur + (rb.buf.length - 1 - j) := by omega
  rw [he]
  exact add_mod_ne_self _ _ _ hc (by omega) (by omega)

lemma getD_set_self {α : Type} (l : List α) (i : Nat) (x d : α) (h : i < l.length) :
    (l.set i x).getD i d = x := by
  rw [List.getD_eq_getElem _ _ (by simpa using h)]
  exact List.getElem_set_self _

lemma getD_set_ne {α : Type} (l : List α) (i j : Nat) (x d : α) (hij : i ≠ j) :
    (l.set i x).getD j d = l.getD j d := by
  rcases Nat.lt_or_ge j l.length with h | h
  · rw [List.getD_eq_getElem _ _ (by simpa using h), List.getD_eq_getElem _ _ h]
    exact List.getElem_set_ne hij _
  · rw [List.getD_eq_default _ _ (by simpa using h), List.getD_eq_default _ _ h]

lemma Add_of_zero (rb : RingBuffer T) (v : T) (h : rb.buf.length = 0) :
    rb.Add v = (rb, default, false) := by
  simp [RingBuffer.Add, h]

lemma Add_buf (rb : RingBuffer T) (v : T) (hpos : 0 < rb.buf.length) :
    (rb.Add v).1.buf = rb.buf.set rb.cur v := by
  have h1 : ¬ rb.buf.length = 0 := by omega
  simp [RingBuffer.Add, h1]

lemma Add_buflen (rb : RingBuffer T) (v : T) :
    (rb.Add v).1.buf.length = rb.buf.length := by
  rcases Nat.eq_zero_or_pos rb.buf.length with hz | hpos
  · rw [Add_of_zero rb v hz]
  · rw [Add_buf rb v hpos]
    simp

lemma Add_len (rb : RingBuffer T) (v : T) (hpos : 0 < rb.buf.length)
    (hl : rb.len ≤ rb.buf.length) :
    (rb.Add v).1.len = min (rb.len + 1) rb.buf.length := by
  have h1 : ¬ rb.buf.length = 0 := by omega
  simp only [RingBuffer.Add, h1, if_false]
  split <;> omega

lemma Add_cur (rb : RingBuffer T) (v : T) (hpos : 0 < rb.buf.length)
    (hc : rb.cur < rb.buf.length) :
    (rb.Add v).1.cur = (rb.cur + 1) % rb.buf.length := by
  have h1 : ¬ rb.buf.length = 0 := by omega
  simp only [RingBuffer.Add, h1, if_false]
  exact incWrap_eq_mod _ _ hc

lemma Add_dropped_of_full (rb : RingBuffer T) (v : T) (hpos : 0 < rb.buf.length)
    (hfull : rb.buf.length ≤ rb.len) :
    (rb.Add v).2 = (rb.buf.getD rb.cur default, true) := by
  have h1 : ¬ rb.buf.length = 0 := by omega
  simp [RingBuffer.Add, h1, hfull]

lemma Add_dropped_of_not_full (rb : RingBuffer T) (v : T) (hnf : rb.len < rb.buf.length) :
    (rb.Add v).2 = (default, false) := by
  have h1 : ¬ rb.buf.length = 0 := by omega
  have h2 : ¬ rb.buf.length ≤ rb.len := by omega
  simp [RingBuffer.Add, h1, h2]

lemma WF_new (sz : Nat) : (NewRingBuffer (T := T) sz).WF := by
  refine ⟨?_, ?_, ?_, ?_⟩ <;> simp [NewRingBuffer]

lemma WF_add (rb : RingBuffer T) (v : T) (hwf : rb.WF) : (rb.Add v).1.WF := by
  obtain ⟨h1, h2, h3, h4⟩ := hwf
  rcases Nat.eq_zero_or_pos rb.buf.length with hz | hpos
  · rw [Add_of_zero rb v hz]
    exact ⟨h1, h2, h3, h4⟩
  · have hc := h4 hpos
    have hlen := Add_len rb v hpos h1
    have hcur := Add_cur rb v hpos hc
    have hblen := Add_buflen rb v
    refine ⟨?_, ?_, ?_, ?_⟩
    · rw [hlen, hblen]
      omega
    · rw [hlen, hblen, hcur]
      intro hlt
      rw [h2 (by omega), Nat.mod_eq_of_lt (by omega)]
      omega
    · rw [hblen]
      omega
    · rw [hblen, hcur]
      intro _
      exact Nat.mod_lt _ hpos

lemma toList_Add (rb : RingBuffer T) (v : T) (hwf : rb.WF) (hpos : 0 < rb.buf.length) :
    (rb.Add v).1.toList = v :: rb.toList.take (rb.buf.length - 1) := by
  obtain ⟨h1, h2, h3, h4⟩ := hwf
  have hc := h4 hpos
  have hbuf := Add_buf rb v hpos
  have hlen := Add_len rb v hpos h1
  have hcur := Add_cur rb v hpos hc
  have hblen := Add_buflen rb v
  apply List.ext_getElem
  · simp only [toList_length, List.length_cons, List.length_take, hlen]
    omega
  · intro i hi1 hi2
    simp only [toList_length, hlen] at hi1
    simp only [RingBuffer.toList, List.getElem_map, List.getElem_range]
    rw [readAt_eq_rdIdx _ (by rw [hcur, hblen]; exact Nat.mod_lt _ hpos) i (by omega)]
    unfold RingBuffer.rdIdx
    rw [hcur, hblen, hbuf]
    cases i with
    | zero =>
      rw [rdIdx_inc_zero _ _ hpos hc, getD_set_self _ _ _ _ hc]
      simp
    | succ j =>
      rw [rdIdx_shift _ _ _ hc (by omega)]
      have hjcap : j + 1 < rb.buf.length := by omega
      have hne : rb.cur ≠ (rb.cur + rb.buf.length - 1 - j) % rb.buf.length := by
        have := rdIdx_ne_cur rb j hc hjcap
        unfold RingBuffer.rdIdx at this
        exact this.symm
      rw [getD_set_ne _ _ _ _ _ hne]
      have hread := readAt_eq_rdIdx rb hc j (by omega)
      unfold RingBuffer.rdIdx at hread
      rw [← hread]
      have hjl : j < rb.toList.length := by simp; omega
      have hjt : j < (rb.toList.take (rb.buf.length - 1)).length := by simp; omega
      rw [List.getElem_cons_succ, List.getElem_take]
      simp [RingBuffer.toList]

lemma addAll_nil (rb : RingBuffer T) : addAll rb [] = rb := rfl

lemma addAll_cons (rb : RingBuffer T) (v : T) (vs : List T) :
    addAll rb (v :: vs) = addAll (rb.Add v).1 vs := rfl

lemma addAll_buflen (vs : List T) (rb : RingBuffer T) :
    (addAll rb vs).buf.length = rb.buf.length := by
  induction vs generalizing rb with
  | nil => rfl
  | cons v vs ih => rw [addAll_cons, ih, Add_buflen]

lemma WF_addAll (vs : List T) (rb : RingBuffer T) (hwf : rb.WF) : (addAll rb vs).WF := by
  induction vs generalizing rb with
  | nil => exact hwf
  | cons v vs ih => exact ih _ (WF_add rb v hwf)

lemma toList_addAll (vs : List T) (rb : RingBuffer T) (hwf : rb.WF)
    (hpos : 0 < rb.buf.length) :
    (addAll rb vs).toList = (vs.reverse ++ rb.toList).take rb.buf.length := by
  induction vs generalizing rb with
  | nil =>
    rw [addAll_nil, List.reverse_nil, List.nil_append]
    exact (List.take_of_length_le (by simpa using hwf.1)).symm
  | cons v vs ih =>
    rw [addAll_cons, ih _ (WF_add rb v hwf) (by rw [Add_buflen]; exact hpos),
      Add_buflen, toList_Add rb v hwf hpos]
    have key : ∀ m, (v :: rb.toList.take (rb.buf.length - 1)).take m
        = (v :: rb.toList).take m ∨ rb.buf.length < m := by
      intro m
      rcases le_or_lt m rb.buf.length with hm | hm
      · left
        cases m with
        | zero => rfl
        | succ k =>
          rw [List.take_succ_cons, List.take_succ_cons, List.take_take]
          have hmin : k ⊓ (rb.buf.length - 1) = k := by omega
          rw [hmin]
      · right
        exact hm
    rcases key (rb.buf.length - vs.reverse.length) with hk | hk
    · rw [List.take_append_eq_append_take, hk, List.reverse_cons, List.append_assoc,
        List.singleton_append, List.take_append_eq_append_take]
    · omega

end RB

namespace RB

variable {T : Type} [Inhabited T]

lemma stepBack_lt (n m : Nat) (hpos : 0 < n) : stepBack n m < n :=
  Nat.mod_lt _ hpos

lemma wrapDec_eq_stepBack (n m : Nat) (hpos : 0 < n) (hm : m < n) :
    (if (m : Int) - 1 < 0 then (m : Int) - 1 + n else (m : Int) - 1)
      = ((stepBack n m : Nat) : Int) := by
  unfold stepBack
  split
  · rename_i h
    have hm0 : m = 0 := by omega
    subst hm0
    rw [Nat.zero_add, Nat.mod_eq_of_lt (by omega)]
    push_cast
    omega
  · rename_i h
    have he : m + n - 1 = (m - 1) + n := by omega
    rw [he, Nat.add_mod_right, Nat.mod_eq_of_lt (by omega)]
    omega

lemma stepBack_iter (n c : Nat) (hpos : 0 < n) (hc : c < n) :
    ∀ (t j : Nat), j + t < n →
      (stepBack n)^[t] ((c + n - 1 - j) % n) = (c + n - 1 - (j + t)) % n := by
  intro t
  induction t with
  | zero =>
    intro j h
    simp
  | succ t ih =>
    intro j h
    rw [Function.iterate_succ_apply]
    have hstep : stepBack n ((c + n - 1 - j) % n) = (c + n - 1 - (j + 1)) % n := by
      unfold stepBack
      have h1 := mod_step_back n (c + n - 1 - j) hpos (by omega)
      have h2 : c + n - 1 - j - 1 = c + n - 1 - (j + 1) := by omega
      rw [h1, h2]
    rw [hstep]
    have hrec := ih (j + 1) (by omega)
    have e : j + 1 + t = j + (t + 1) := by omega
    rw [e] at hrec
    exact hrec

lemma copyBack_length (old : List T) : ∀ (k : Nat) (r : Int) (buf : List T),
    (copyBack old k r buf).1.length = buf.length := by
  intro k
  induction k with
  | zero =>
    intro r buf
    rfl
  | succ k ih =>
    intro r buf
    simp only [copyBack]
    rw [ih]
    simp

lemma copyBack_snd (old : List T) (hpos : 0 < old.length) :
    ∀ (k m : Nat), m < old.length → ∀ (buf : List T),
      (copyBack old k (m : Int) buf).2 = (((stepBack old.length)^[k] m : Nat) : Int) := by
  intro k
  induction k with
  | zero =>
    intro m hm buf
    simp [copyBack]
  | succ k ih =>
    intro m hm buf
    simp only [copyBack]
    rw [Int.toNat_natCast, wrapDec_eq_stepBack _ _ hpos hm,
      ih (stepBack old.length m) (stepBack_lt _ _ hpos) _,
      Function.iterate_succ_apply]

lemma copyBack_fst (old : List T) (hpos : 0 < old.length) :
    ∀ (k m : Nat), m < old.length → ∀ (buf : List T), k ≤ buf.length →
      (copyBack old k (m : Int) buf).1 =
        (List.range k).map
            (fun t => old.getD ((stepBack old.length)^[k - 1 - t] m) default)
          ++ buf.drop k := by
  intro k
  induction k with
  | zero =>
    intro m hm buf hk
    simp [copyBack]
  | succ k ih =>
    intro m hm buf hk
    simp only [copyBack]
    rw [Int.toNat_natCast, wrapDec_eq_stepBack _ _ hpos hm,
      ih (stepBack old.length m) (stepBack_lt _ _ hpos) _ (by simp; omega)]
    rw [drop_set_cons _ _ _ (by omega)]
    rw [List.range_succ, List.map_append]
    rw [List.append_assoc]
    congr 1
    · apply List.map_congr_left
      intro t ht
      rw [List.mem_range] at ht
      rw [← Function.iterate_succ_apply]
      have he : Nat.succ (k - 1 - t) = k + 1 - 1 - t := by omega
      rw [he]
    · simp

lemma dropLoop_fst (old : List T) (hpos : 0 < old.length) :
    ∀ (k m : Nat), m < old.length → ∀ (acc : List T),
      (dropLoop old k (m : Int) acc).1 =
        acc ++ (List.range k).map
          (fun t => old.getD ((stepBack old.length)^[t] m) default) := by
  intro k
  induction k with
  | zero =>
    intro m hm acc
    simp [dropLoop]
  | succ k ih =>
    intro m hm acc
    simp only [dropLoop]
    rw [Int.toNat_natCast, wrapDec_eq_stepBack _ _ hpos hm,
      ih (stepBack old.length m) (stepBack_lt _ _ hpos) _]
    rw [List.range_succ_eq_map, List.map_cons, List.map_map, List.append_assoc,
      List.singleton_append]
    simp [Function.iterate_succ_apply]

lemma Resize_of_nonpos (rb : RingBuffer T) (sz : Int) (h : sz ≤ 0) :
    rb.Resize sz = (rb, []) := by
  simp [RingBuffer.Resize, h]

lemma Resize_len (rb : RingBuffer T) (sz : Int) (hsz : 0 < sz) :
    (rb.Resize sz).1.len = min rb.len sz.toNat := by
  have h1 : ¬ sz ≤ 0 := by omega
  simp only [RingBuffer.Resize, h1, if_false]
  split <;> omega

lemma Resize_cur (rb : RingBuffer T) (sz : Int) (hsz : 0 < sz) :
    (rb.Resize sz).1.cur = min rb.len sz.toNat % sz.toNat := by
  have h1 : ¬ sz ≤ 0 := by omega
  have hpos : 0 < sz.toNat := by omega
  simp only [RingBuffer.Resize, h1, if_false]
  rcases Nat.lt_or_ge sz.toNat rb.len with h | h
  · rw [if_pos (show rb.len > sz.toNat by omega), if_pos (Nat.le_refl sz.toNat)]
    have e1 : min rb.len sz.toNat = sz.toNat := by omega
    rw [e1, Nat.mod_self]
    omega
  · rw [if_neg (show ¬ rb.len > sz.toNat by omega)]
    rcases Nat.eq_or_lt_of_le h with he | hlt
    · rw [if_pos (show rb.len ≥ sz.toNat by omega)]
      have e1 : min rb.len sz.toNat = sz.toNat := by omega
      rw [e1, Nat.mod_self]
      omega
    · rw [if_neg (show ¬ rb.len ≥ sz.toNat by omega)]
      have e1 : min rb.len sz.toNat = rb.len := by omega
      rw [e1, Nat.mod_eq_of_lt (by omega)]

lemma Resize_buflen (rb : RingBuffer T) (sz : Int) (hsz : 0 < sz) :
    (rb.Resize sz).1.buf.length = sz.toNat := by
  have h1 : ¬ sz ≤ 0 := by omega
  simp only [RingBuffer.Resize, h1, if_false]
  rw [copyBack_length]
  simp

lemma WF_resize (rb : RingBuffer T) (sz : Int) (hwf : rb.WF) : (rb.Resize sz).1.WF := by
  rcases le_or_lt sz 0 with h | h
  · rw [Resize_of_nonpos rb sz h]
    exact hwf
  · have hlen := Resize_len rb sz h
    have hcur := Resize_cur rb sz h
    have hblen := Resize_buflen rb sz h
    have hpos : 0 < sz.toNat := by omega
    refine ⟨?_, ?_, ?_, ?_⟩
    · rw [hlen, hblen]
      omega
    · rw [hlen, hblen, hcur]
      intro hlt
      rw [Nat.mod_eq_of_lt (by omega)]
    · rw [hblen]
      omega
    · rw [hblen, hcur]
      intro _
      exact Nat.mod_lt _ hpos

lemma reachable_wf {rb : RingBuffer T} (h : Reachable rb) : rb.WF := by
  induction h with
  | new sz => exact WF_new sz
  | add v _ ih => exact WF_add _ v ih
  | resize sz _ ih => exact WF_resize _ sz ih

end RB

namespace RB

variable {T : Type} [Inhabited T]

lemma fill_rdIdx (szn fill i : Nat) (hpos : 0 < szn) (hfill : fill ≤ szn) (hi : i < fill) :
    (fill % szn + szn - 1 - i) % szn = fill - 1 - i := by
  rcases Nat.eq_or_lt_of_le hfill with he | hlt
  · rw [he, Nat.mod_self, Nat.mod_eq_of_lt (by omega)]
    omega
  · rw [Nat.mod_eq_of_lt hlt]
    have he2 : fill + szn - 1 - i = (fill - 1 - i) + szn := by omega
    rw [he2, Nat.add_mod_right, Nat.mod_eq_of_lt (by omega)]

lemma resize_rdcur0 (rb : RingBuffer T) (hwf : rb.WF) (hl : 0 < rb.len) :
    (if (rb.cur : Int) - 1 < 0 then (rb.cur : Int) - 1 + rb.len else (rb.cur : Int) - 1)
      = (((rb.cur + rb.buf.length - 1 - 0) % rb.buf.length : Nat) : Int) := by
  obtain ⟨h1, h2, h3, h4⟩ := hwf
  have hpos : 0 < rb.buf.length := by omega
  have hc := h4 hpos
  split
  · rename_i h
    have hc0 : rb.cur = 0 := by omega
    have hlen : rb.len = rb.buf.length := by
      rcases Nat.lt_or_ge rb.len rb.buf.length with hlt | hge
      · have := h2 hlt
        omega
      · omega
    have he : (rb.cur + rb.buf.length - 1 - 0) % rb.buf.length = rb.buf.length - 1 := by
      rw [hc0, Nat.mod_eq_of_lt (by omega)]
      omega
    rw [he]
    omega
  · rename_i h
    have he : (rb.cur + rb.buf.length - 1 - 0) % rb.buf.length = rb.cur - 1 := by
      have he2 : rb.cur + rb.buf.length - 1 - 0 = (rb.cur - 1) + rb.buf.length := by omega
      rw [he2, Nat.add_mod_right, Nat.mod_eq_of_lt (by omega)]
    rw [he]
    omega

lemma Resize_buf (rb : RingBuffer T) (sz : Int) (hwf : rb.WF) (hsz : 0 < sz)
    (hl : 0 < rb.len) :
    (rb.Resize sz).1.buf =
      (List.range (min rb.len sz.toNat)).map
          (fun t => rb.buf.getD
            ((stepBack rb.buf.length)^[min rb.len sz.toNat - 1 - t]
              ((rb.cur + rb.buf.length - 1 - 0) % rb.buf.length)) default)
        ++ (List.replicate sz.toNat default).drop (min rb.len sz.toNat) := by
  have h1 : ¬ sz ≤ 0 := by omega
  have hpos : 0 < rb.buf.length := by
    have := hwf.1
    omega
  simp only [RingBuffer.Resize, h1, if_false]
  rw [resize_rdcur0 rb hwf hl]
  have hfill : (if rb.len > sz.toNat then sz.toNat else rb.len) = min rb.len sz.toNat := by
    split <;> omega
  rw [hfill]
  rw [copyBack_fst rb.buf hpos (min rb.len sz.toNat)
      ((rb.cur + rb.buf.length - 1 - 0) % rb.buf.length) (Nat.mod_lt _ hpos) _
      (by simp only [List.length_replicate]; omega)]

lemma Resize_toList (rb : RingBuffer T) (sz : Int) (hwf : rb.WF) (hsz : 0 < sz) :
    (rb.Resize sz).1.toList = rb.toList.take sz.toNat := by
  have hb1 := hwf.1
  have hfin := Resize_len rb sz hsz
  apply List.ext_getElem
  · simp [hfin]
    omega
  · intro i hi1 hi2
    have hi : i < min rb.len sz.toNat := by
      simpa [hfin] using hi1
    have hl : 0 < rb.len := by omega
    have hpos : 0 < rb.buf.length := by omega
    have hc := hwf.2.2.2 hpos
    have hpos2 : 0 < sz.toNat := by omega
    simp only [RingBuffer.toList, List.getElem_map, List.getElem_range]
    rw [readAt_eq_rdIdx _
        (by rw [Resize_cur rb sz hsz, Resize_buflen rb sz hsz]; exact Nat.mod_lt _ hpos2)
        i (by rw [Resize_buflen rb sz hsz]; omega)]
    unfold RingBuffer.rdIdx
    rw [Resize_cur rb sz hsz, Resize_buflen rb sz hsz, Resize_buf rb sz hwf hsz hl,
      fill_rdIdx sz.toNat (min rb.len sz.toNat) i hpos2 (by omega) hi]
    have hwhole : min rb.len sz.toNat - 1 - i <
        ((List.range (min rb.len sz.toNat)).map
            (fun t => rb.buf.getD
              ((stepBack rb.buf.length)^[min rb.len sz.toNat - 1 - t]
                ((rb.cur + rb.buf.length - 1 - 0) % rb.buf.length)) default)).length := by
      simp
      omega
    rw [List.getD_eq_getElem _ _ (by simp [List.length_replicate]; omega),
      List.getElem_append_left hwhole, List.getElem_map, List.getElem_range]
    have hexp : min rb.len sz.toNat - 1 - (min rb.len sz.toNat - 1 - i) = i := by omega
    rw [hexp, stepBack_iter rb.buf.length rb.cur hpos hc i 0 (by omega), Nat.zero_add]
    have hrd := readAt_eq_rdIdx rb hc i (by omega)
    unfold RingBuffer.rdIdx at hrd
    rw [← hrd, List.getElem_take]
    simp [RingBuffer.toList]

lemma Resize_dropped (rb : RingBuffer T) (sz : Int) (hwf : rb.WF) (hsz : 0 < sz) :
    (rb.Resize sz).2 = rb.toList.drop sz.toNat := by
  have h1 : ¬ sz ≤ 0 := by omega
  rcases le_or_lt rb.len sz.toNat with hle | hgt
  · have h2 : rb.len - sz.toNat = 0 := by omega
    simp only [RingBuffer.Resize, h1, if_false, h2]
    rw [List.drop_eq_nil_of_le (by simp; omega)]
    rfl
  · have hl : 0 < rb.len := by omega
    have hlen1 := hwf.1
    have hpos : 0 < rb.buf.length := by omega
    have hc := hwf.2.2.2 hpos
    simp only [RingBuffer.Resize, h1, if_false]
    rw [resize_rdcur0 rb hwf hl]
    have hfill : (if rb.len > sz.toNat then sz.toNat else rb.len) = sz.toNat := by
      split <;> omega
    rw [hfill]
    rw [copyBack_snd rb.buf hpos sz.toNat
        ((rb.cur + rb.buf.length - 1 - 0) % rb.buf.length) (Nat.mod_lt _ hpos) _]
    rw [stepBack_iter rb.buf.length rb.cur hpos hc sz.toNat 0 (by omega), Nat.zero_add]
    rw [dropLoop_fst rb.buf hpos (rb.len - sz.toNat)
        ((rb.cur + rb.buf.length - 1 - sz.toNat) % rb.buf.length) (Nat.mod_lt _ hpos) _]
    rw [List.nil_append]
    apply List.ext_getElem
    · simp
    · intro i hi1 hi2
      have hii : i < rb.len - sz.toNat := by simpa using hi1
      simp only [List.getElem_map, List.getElem_range]
      rw [stepBack_iter rb.buf.length rb.cur hpos hc i sz.toNat (by omega)]
      rw [List.getElem_drop]
      simp only [RingBuffer.toList, List.getElem_map, List.getElem_range]
      have hrd := readAt_eq_rdIdx rb hc (sz.toNat + i) (by omega)
      unfold RingBuffer.rdIdx at hrd
      rw [← hrd]

lemma Overview_spec (rb : RingBuffer T) (hwf : rb.WF) :
    rb.Overview = (rb.toList.headD default, rb.toList.getLastD default, rb.toList.length) := by
  rcases Nat.eq_zero_or_pos rb.len with hl0 | hl
  · have ht : rb.toList = [] := by simp [RingBuffer.toList, hl0]
    rw [ht]
    simp [RingBuffer.Overview, hl0]
  · obtain ⟨h1, h2, h3, h4⟩ := hwf
    have hpos : 0 < rb.buf.length := by omega
    have hc := h4 hpos
    have hne : ¬ rb.len = 0 := by omega
    simp only [RingBuffer.Overview, hne, if_false]
    have hhead : (if (rb.cur : Int) - 1 < 0 then (rb.cur : Int) - 1 + rb.buf.length
          else (rb.cur : Int) - 1)
        = (((rb.cur + rb.buf.length - 1 - 0) % rb.buf.length : Nat) : Int) := by
      split
      · rename_i h
        have hc0 : rb.cur = 0 := by omega
        have he : (rb.cur + rb.buf.length - 1 - 0) % rb.buf.length = rb.buf.length - 1 := by
          rw [hc0, Nat.mod_eq_of_lt (by omega)]
          omega
        rw [he]
        omega
      · rename_i h
        have he : (rb.cur + rb.buf.length - 1 - 0) % rb.buf.length = rb.cur - 1 := by
          have he2 : rb.cur + rb.buf.length - 1 - 0 = (rb.cur - 1) + rb.buf.length := by omega
          rw [he2, Nat.add_mod_right, Nat.mod_eq_of_lt (by omega)]
        rw [he]
        omega
    rw [hhead]
    have hcast : ((rb.len : Int) - 1)
        = ((rb.len - 1 : Nat) : Int) := by omega
    rw [hcast]
    rw [wrap_sub_eq_mod rb.buf.length
        ((rb.cur + rb.buf.length - 1 - 0) % rb.buf.length) (rb.len - 1)
        (Nat.mod_lt _ hpos) (by omega)]
    have hM : ((rb.cur + rb.buf.length - 1 - 0) % rb.buf.length + rb.buf.length
          - (rb.len - 1)) % rb.buf.length
        = (rb.cur + rb.buf.length - 1 - (rb.len - 1)) % rb.buf.length := by
      have e1 : (rb.cur + rb.buf.length - 1 - 0) % rb.buf.length + rb.buf.length - (rb.len - 1)
          = (rb.cur + rb.buf.length - 1 - 0) % rb.buf.length + (rb.buf.length - (rb.len - 1)) := by
        omega
      rw [e1, Nat.mod_add_mod]
      have e2 : rb.cur + rb.buf.length - 1 - 0 + (rb.buf.length - (rb.len - 1))
          = (rb.cur + rb.buf.length - 1 - (rb.len - 1)) + rb.buf.length := by
        omega
      rw [e2, Nat.add_mod_right]
    rw [hM]
    have hr0 := readAt_eq_rdIdx rb hc 0 (by omega)
    unfold RingBuffer.rdIdx at hr0
    have hr1 := readAt_eq_rdIdx rb hc (rb.len - 1) (by omega)
    unfold RingBuffer.rdIdx at hr1
    have hint : ((((rb.cur + rb.buf.length - 1 - 0) % rb.buf.length : Nat) : Int)).toNat
        = (rb.cur + rb.buf.length - 1 - 0) % rb.buf.length := Int.toNat_natCast _
    rw [hint, ← hr0, ← hr1]
    have hhd : rb.toList.headD default = rb.readAt 0 := by
      rw [headD_eq_getD, toList_getD rb 0 hl]
    have hls : rb.toList.getLastD default = rb.readAt (rb.len - 1) := by
      rw [getLastD_eq_getD _ _ (by simp; omega), toList_length, toList_getD rb (rb.len - 1) (by omega)]
    rw [hhd, hls, toList_length]

end RB

namespace RB

variable {T : Type} [Inhabited T]

lemma copyLoop_length : ∀ (src dst : List T) (i : Nat),
    (copyLoop src dst i).1.length = dst.length := by
  intro src
  induction src with
  | nil =>
    intro dst i
    rfl
  | cons v vs ih =>
    intro dst i
    simp only [copyLoop]
    split
    · rfl
    · rw [ih]
      simp

lemma copyLoop_idx_le : ∀ (src dst : List T) (i : Nat), i ≤ dst.length →
    (copyLoop src dst i).2 ≤ dst.length := by
  intro src
  induction src with
  | nil =>
    intro dst i h
    exact h
  | cons v vs ih =>
    intro dst i h
    simp only [copyLoop]
    split
    · exact h
    · have := ih (dst.set i v) (i + 1) (by simp; omega)
      simpa using this

lemma RingBuffers_Resize_of_nonpos (rbs : RingBuffers T) (sz : Int) (h : sz ≤ 0) :
    rbs.Resize sz = (rbs, none) := by
  simp [RingBuffers.Resize, h]

lemma lookup_Resize (rbs : RingBuffers T) (sz : Int) (k : String) :
    ((rbs.Resize sz).1).lookup k = rbs.lookup k := by
  unfold RingBuffers.Resize
  split
  · rfl
  · rfl

lemma GetOrCreate_sz (rbs : RingBuffers T) (k : String) :
    (rbs.GetOrCreate k).1.sz = rbs.sz := by
  unfold RingBuffers.GetOrCreate
  cases hl : rbs.lookup k <;> rfl

lemma GetOrCreate_id_of_found (rbs : RingBuffers T) (k : String) (id : Nat)
    (h : rbs.lookup k = some id) : rbs.GetOrCreate k = (rbs, id) := by
  unfold RingBuffers.GetOrCreate
  rw [h]

lemma GetOrCreate_created (rbs : RingBuffers T) (k : String) (h : rbs.lookup k = none) :
    ((rbs.GetOrCreate k).1).deref (rbs.GetOrCreate k).2 = NewRingBuffer rbs.sz := by
  unfold RingBuffers.GetOrCreate
  rw [h]
  unfold RingBuffers.deref
  exact getD_append_self _ _ _

lemma find?_eq_none_of_lookup (rbs : RingBuffers T) (k : String)
    (h : rbs.lookup k = none) :
    rbs.bufs.find? (fun p => p.1 == k) = none := by
  unfold RingBuffers.lookup at h
  cases hfind : rbs.bufs.find? (fun p => p.1 == k) with
  | none => rfl
  | some p =>
    rw [hfind] at h
    simp at h

lemma GetOrCreate_lookup (rbs : RingBuffers T) (k : String) :
    ((rbs.GetOrCreate k).1).lookup k = some (rbs.GetOrCreate k).2 := by
  unfold RingBuffers.GetOrCreate
  cases hl : rbs.lookup k with
  | some id =>
    simpa using hl
  | none =>
    have hf := find?_eq_none_of_lookup rbs k hl
    unfold RingBuffers.lookup
    simp [List.find?_append, hf]

lemma GetOrCreate_preserves_lookup (rbs : RingBuffers T) (k k2 : String) (id : Nat)
    (h : rbs.lookup k = some id) :
    ((rbs.GetOrCreate k2).1).lookup k = some id := by
  unfold RingBuffers.GetOrCreate
  cases hl : rbs.lookup k2 with
  | some id2 =>
    simpa using h
  | none =>
    unfold RingBuffers.lookup at h ⊢
    obtain ⟨p, hp, hmap⟩ : ∃ p, rbs.bufs.find? (fun q => q.1 == k) = some p ∧ p.2 = id := by
      cases hfind : rbs.bufs.find? (fun q => q.1 == k) with
      | none =>
        rw [hfind] at h
        simp at h
      | some p =>
        rw [hfind] at h
        simp at h
        exact ⟨p, rfl, h⟩
    simp [List.find?_append, hp, hmap]

lemma WFR_GetOrCreate (rbs : RingBuffers T) (k : String) (h : rbs.WFR) :
    ((rbs.GetOrCreate k).1).WFR := by
  unfold RingBuffers.GetOrCreate
  cases hl : rbs.lookup k with
  | some id =>
    exact h
  | none =>
    intro p hp
    simp only [List.length_append, List.length_cons, List.length_nil]
    rcases List.mem_append.mp hp with h1 | h2
    · have := h p h1
      omega
    · simp at h2
      rw [h2]
      simp

lemma GetOrCreate_id_lt (rbs : RingBuffers T) (k : String) (h : rbs.WFR) :
    (rbs.GetOrCreate k).2 < (rbs.GetOrCreate k).1.heap.length := by
  unfold RingBuffers.GetOrCreate
  cases hl : rbs.lookup k with
  | some id =>
    unfold RingBuffers.lookup at hl
    obtain ⟨p, hp, hmap⟩ : ∃ p, rbs.bufs.find? (fun q => q.1 == k) = some p ∧ p.2 = id := by
      cases hfind : rbs.bufs.find? (fun q => q.1 == k) with
      | none =>
        rw [hfind] at hl
        simp at hl
      | some p =>
        rw [hfind] at hl
        simp at hl
        exact ⟨p, rfl, hl⟩
    have := h p (List.mem_of_find?_eq_some hp)
    simpa [hmap] using this
  | none =>
    simp

lemma deref_addAt_self (rbs : RingBuffers T) (id : Nat) (v : T)
    (h : id < rbs.heap.length) :
    (rbs.addAt id v).deref id = ((rbs.deref id).Add v).1 := by
  unfold RingBuffers.addAt RingBuffers.deref
  exact getD_set_self _ _ _ _ h

end RB

namespace RB

/-- C1: for every capacity `C > 0` and every sequence `vs` of `N` values
inserted via `Add` into `NewRingBuffer C`, a subsequent `Walk` yields
exactly `min N C` elements, and they equal the last `min N C` inserted
values in reverse-insertion order (newest first, oldest last). -/
theorem claim_C1_insert_then_walk (T : Type) [Inhabited T] (C : Nat) (hC : 0 < C)
    (vs : List T) :
    (addAll (NewRingBuffer C) vs).toList = vs.reverse.take (min vs.length C) ∧
    (addAll (NewRingBuffer C) vs).toList.length = min vs.length C ∧
    ∀ (E : Type) (fn : T → Option E),
      (addAll (NewRingBuffer C) vs).Walk fn
        = walkSeq fn (vs.reverse.take (min vs.length C)) := by
  have h0 : (NewRingBuffer (T := T) C).toList = [] := by
    simp [NewRingBuffer, RingBuffer.toList]
  have hbl : (NewRingBuffer (T := T) C).buf.length = C := by
    simp [NewRingBuffer]
  have h := toList_addAll vs (NewRingBuffer C) (WF_new C) (by rw [hbl]; exact hC)
  rw [h0, List.append_nil, hbl] at h
  have h2 : vs.reverse.take C = vs.reverse.take (min vs.length C) := by
    rw [List.take_eq_take]
    simp only [List.length_reverse]
    omega
  have hmain := h.trans h2
  refine ⟨hmain, ?_, ?_⟩
  · rw [hmain]
    simp only [List.length_take, List.length_reverse]
    omega
  · intro E fn
    unfold RingBuffer.Walk
    rw [hmain]

theorem claim_C1_witness :
    0 < 2 ∧ (addAll (NewRingBuffer 2) [1, 2, 3] : RingBuffer Nat).toList = [3, 2] := by
  refine ⟨by decide, ?_⟩
  have h := (claim_C1_insert_then_walk Nat 2 (by decide) [1, 2, 3]).1
  exact h.trans (by decide)

/-- C2: for every reachable buffer with logical contents
`[v1 (newest) ... vk (oldest)]` and every `m > 0`, `Resize m` leaves the
buffer holding the first `min k m` of those values in order and returns
exactly the values dropped from position `m` on, newest-to-oldest; when
`m ≥ k` the contents are unchanged and nothing is dropped; afterwards the
count is `min k m` and the write cursor is `min k m mod m`. -/
theorem claim_C2_resize_order_preserving (T : Type) [Inhabited T] (rb : RingBuffer T)
    (hr : Reachable rb) (m : Int) (hm : 0 < m) :
    (rb.Resize m).1.toList = rb.toList.take m.toNat ∧
    (rb.Resize m).2 = rb.toList.drop m.toNat ∧
    ((rb.toList.length : Int) ≤ m →
      (rb.Resize m).1.toList = rb.toList ∧ (rb.Resize m).2 = []) ∧
    (rb.Resize m).1.len = min rb.len m.toNat ∧
    (rb.Resize m).1.cur = min rb.len m.toNat % m.toNat := by
  have hwf := reachable_wf hr
  refine ⟨Resize_toList rb m hwf hm, Resize_dropped rb m hwf hm, ?_,
    Resize_len rb m hm, Resize_cur rb m hm⟩
  intro hk
  simp only [toList_length] at hk
  constructor
  · rw [Resize_toList rb m hwf hm]
    exact List.take_of_length_le (by simp only [toList_length]; omega)
  · rw [Resize_dropped rb m hwf hm]
    exact List.drop_eq_nil_of_le (by simp only [toList_length]; omega)

theorem claim_C2_witness :
    ((addAll (NewRingBuffer 3) [1, 2, 3] : RingBuffer Nat).Resize 2).1.toList = [3, 2] ∧
    ((addAll (NewRingBuffer 3) [1, 2, 3] : RingBuffer Nat).Resize 2).2 = [1] := by
  have h := claim_C2_resize_order_preserving Nat (addAll (NewRingBuffer 3) [1, 2, 3])
    (Reachable.add 3 (Reachable.add 2 (Reachable.add 1 (Reachable.new 3)))) 2 (by decide)
  exact ⟨h.1.trans (by decide), h.2.1.trans (by decide)⟩

/-- C3: for every reachable buffer with capacity `> 0`: an `Add` when the
buffer is full returns the logically oldest element (the last value the
walk yields) with flag `true`; an `Add` when `count < capacity` returns
the zero value with flag `false`. -/
theorem claim_C3_add_eviction_report (T : Type) [Inhabited T] (rb : RingBuffer T)
    (hr : Reachable rb) (hpos : 0 < rb.buf.length) (v : T) :
    (rb.len = rb.buf.length → (rb.Add v).2 = (rb.toList.getLastD default, true)) ∧
    (rb.len < rb.buf.length → (rb.Add v).2 = (default, false)) := by
  have hwf := reachable_wf hr
  constructor
  · intro hfull
    rw [Add_dropped_of_full rb v hpos (by omega)]
    have hc := hwf.2.2.2 hpos
    have hlast : rb.toList.getLastD default = rb.readAt (rb.len - 1) := by
      rw [getLastD_eq_getD _ _ (by simp; omega), toList_length,
        toList_getD rb (rb.len - 1) (by omega)]
    rw [hlast, readAt_eq_rdIdx rb hc (rb.len - 1) (by omega)]
    unfold RingBuffer.rdIdx
    have he : rb.cur + rb.buf.length - 1 - (rb.len - 1) = rb.cur := by omega
    rw [he, Nat.mod_eq_of_lt hc]
  · intro hnf
    exact Add_dropped_of_not_full rb v hnf

theorem claim_C3_witness :
    ((addAll (NewRingBuffer 2) [5, 6] : RingBuffer Nat).Add 9).2 = (5, true) := by
  have h := (claim_C3_add_eviction_report Nat (addAll (NewRingBuffer 2) [5, 6])
    (Reachable.add 6 (Reachable.add 5 (Reachable.new 2))) (by decide) 9).1 (by decide)
  exact h.trans (by decide)

/-- C4: for every `sz < 1`, `NewRingBuffers sz` has default capacity `1`,
and every buffer subsequently created through `GetOrCreate` (from the
fresh registry, or from any registry whose default is `1`) has capacity
`1`, not `sz` and not `0`. -/
theorem claim_C4_registry_default_capacity_one (T : Type) [Inhabited T] (sz : Int)
    (hsz : sz < 1) :
    (NewRingBuffers (T := T) sz).sz = 1 ∧
    (∀ k : String,
      (((NewRingBuffers (T := T) sz).GetOrCreate k).1.deref
        ((NewRingBuffers (T := T) sz).GetOrCreate k).2).buf.length = 1) ∧
    (∀ (r : RingBuffers T) (k : String), r.sz = 1 → r.lookup k = none →
      ((r.GetOrCreate k).1.deref (r.GetOrCreate k).2).buf.length = 1 ∧
      (r.GetOrCreate k).1.sz = 1) := by
  have h1 : (NewRingBuffers (T := T) sz).sz = 1 := by
    simp only [NewRingBuffers]
    omega
  have hgen : ∀ (r : RingBuffers T) (k : String), r.sz = 1 → r.lookup k = none →
      ((r.GetOrCreate k).1.deref (r.GetOrCreate k).2).buf.length = 1 ∧
      (r.GetOrCreate k).1.sz = 1 := by
    intro r k hr1 hnone
    constructor
    · rw [GetOrCreate_created r k hnone, hr1]
      simp [NewRingBuffer]
    · rw [GetOrCreate_sz]
      exact hr1
  refine ⟨h1, ?_, hgen⟩
  intro k
  exact (hgen (NewRingBuffers sz) k h1 rfl).1

theorem claim_C4_witness :
    (NewRingBuffers (T := Nat) 0).sz = 1 ∧
    (((NewRingBuffers (T := Nat) 0).GetOrCreate (String.mk ['f'])).1.deref
      ((NewRingBuffers (T := Nat) 0).GetOrCreate (String.mk ['f'])).2).buf.length = 1 := by
  have h := claim_C4_registry_default_capacity_one Nat 0 (by decide)
  exact ⟨h.1, h.2.1 (String.mk ['f'])⟩

/-- C5: for every `x ≤ 0`, `RingBuffer.Resize x` returns an empty dropped
list and the unchanged buffer, and `RingBuffers.Resize x` returns a `nil`
dropped map and the unchanged registry; neither call fails. -/
theorem claim_C5_nonpositive_resize_noop (T : Type) [Inhabited T] (x : Int) (hx : x ≤ 0) :
    (∀ rb : RingBuffer T, rb.Resize x = (rb, [])) ∧
    (∀ rbs : RingBuffers T, rbs.Resize x = (rbs, none)) :=
  ⟨fun rb => Resize_of_nonpos rb x hx, fun rbs => RingBuffers_Resize_of_nonpos rbs x hx⟩

theorem claim_C5_witness :
    (NewRingBuffer 2 : RingBuffer Nat).Resize (-3) = (NewRingBuffer 2, []) ∧
    (NewRingBuffers (T := Nat) 2).Resize (-3) = (NewRingBuffers (T := Nat) 2, none) := by
  have h := claim_C5_nonpositive_resize_noop Nat (-3) (by decide)
  exact ⟨h.1 _, h.2 _⟩

/-- C6: for every reachable buffer, `Overview` returns exactly the first
element the walk yields, the last element the walk yields, and the number
of elements the walk yields; on an empty buffer it returns zero values
and count `0`. -/
theorem claim_C6_overview_agrees_with_walk (T : Type) [Inhabited T] (rb : RingBuffer T)
    (hr : Reachable rb) :
    rb.Overview = (rb.toList.headD default, rb.toList.getLastD default, rb.toList.length) ∧
    (rb.len = 0 → rb.Overview = (default, default, 0)) := by
  have hwf := reachable_wf hr
  refine ⟨Overview_spec rb hwf, ?_⟩
  intro h0
  simp [RingBuffer.Overview, h0]

theorem claim_C6_witness :
    (addAll (NewRingBuffer 3) [1, 2, 3, 4] : RingBuffer Nat).Overview = (4, 2, 3) := by
  have h := (claim_C6_overview_agrees_with_walk Nat (addAll (NewRingBuffer 3) [1, 2, 3, 4])
    (Reachable.add 4 (Reachable.add 3 (Reachable.add 2 (Reachable.add 1
      (Reachable.new 3)))))).1
  exact h.trans (by decide)

/-- C7: for every well-formed registry and key, two `GetOrCreate` calls
with the same key return the same handle and leave the registry unchanged
on the second call; a value inserted through that handle is visible when
reading through the handle again; and the key's association to its buffer
cell survives every later registry-wide `Resize` and every later
`GetOrCreate`. -/
theorem claim_C7_getorcreate_idempotent_persistent (T : Type) [Inhabited T]
    (rbs : RingBuffers T) (hwfr : rbs.WFR) (k : String) :
    ((rbs.GetOrCreate k).1.GetOrCreate k)
      = ((rbs.GetOrCreate k).1, (rbs.GetOrCreate k).2) ∧
    (∀ v : T, (((rbs.GetOrCreate k).1.addAt (rbs.GetOrCreate k).2 v).deref
        (rbs.GetOrCreate k).2)
      = (((rbs.GetOrCreate k).1.deref (rbs.GetOrCreate k).2).Add v).1) ∧
    (∀ m : Int, (((rbs.GetOrCreate k).1.Resize m).1).lookup k
      = some (rbs.GetOrCreate k).2) ∧
    (∀ k2 : String, (((rbs.GetOrCreate k).1.GetOrCreate k2).1).lookup k
      = some (rbs.GetOrCreate k).2) := by
  have hlk := GetOrCreate_lookup rbs k
  refine ⟨GetOrCreate_id_of_found _ k _ hlk, ?_, ?_, ?_⟩
  · intro v
    exact deref_addAt_self _ _ v (GetOrCreate_id_lt rbs k hwfr)
  · intro m
    rw [lookup_Resize]
    exact hlk
  · intro k2
    exact GetOrCreate_preserves_lookup _ k k2 _ hlk

theorem claim_C7_witness :
    (((NewRingBuffers (T := Nat) 5).GetOrCreate (String.mk ['f'])).1.GetOrCreate
        (String.mk ['f']))
      = (((NewRingBuffers (T := Nat) 5).GetOrCreate (String.mk ['f'])).1,
         ((NewRingBuffers (T := Nat) 5).GetOrCreate (String.mk ['f'])).2) :=
  (claim_C7_getorcreate_idempotent_persistent Nat (NewRingBuffers 5)
    (by intro p hp; simp [NewRingBuffers] at hp) (String.mk ['f'])).1

/-- C8: a buffer constructed with capacity `0` is a fixed point of every
sequence of `Add` calls: its count is always `0`, every `Add` leaves the
state unchanged and returns the zero value with flag `false`, and
`Overview` returns zero values with count `0`. -/
theorem claim_C8_zero_capacity_buffer (T : Type) [Inhabited T] (vs : List T) :
    addAll (NewRingBuffer 0) vs = (NewRingBuffer 0 : RingBuffer T) ∧
    (addAll (NewRingBuffer 0 : RingBuffer T) vs).len = 0 ∧
    (∀ v : T, (addAll (NewRingBuffer 0 : RingBuffer T) vs).Add v
        = (addAll (NewRingBuffer 0) vs, default, false)) ∧
    (addAll (NewRingBuffer 0 : RingBuffer T) vs).Overview = (default, default, 0) := by
  have hz : (NewRingBuffer 0 : RingBuffer T).buf.length = 0 := by
    simp [NewRingBuffer]
  have hfix : addAll (NewRingBuffer 0) vs = (NewRingBuffer 0 : RingBuffer T) := by
    induction vs with
    | nil => rfl
    | cons v vs ih =>
      rw [addAll_cons]
      have hone : ((NewRingBuffer 0 : RingBuffer T).Add v).1 = NewRingBuffer 0 := by
        rw [Add_of_zero _ _ hz]
      rw [hone]
      exact ih
  refine ⟨hfix, ?_, ?_, ?_⟩
  · rw [hfix]
    rfl
  · intro v
    rw [hfix, Add_of_zero _ _ hz]
  · rw [hfix]
    simp [RingBuffer.Overview, NewRingBuffer]

/-- C9: in every reachable buffer state, if the write cursor is `0` and
the capacity is positive then the count is either `0` or equal to the
capacity — the unstated invariant that justifies `Resize` wrapping its
initial read cursor by `rb.len` instead of `len(rb.buf)`. -/
theorem claim_C9_cursor_zero_invariant (T : Type) [Inhabited T] (rb : RingBuffer T)
    (hr : Reachable rb) (hc : rb.cur = 0) (hpos : 0 < rb.buf.length) :
    rb.len = 0 ∨ rb.len = rb.buf.length := by
  have hwf := reachable_wf hr
  rcases Nat.lt_or_ge rb.len rb.buf.length with h | h
  · left
    have := hwf.2.1 h
    omega
  · right
    have := hwf.1
    omega

theorem claim_C9_witness :
    (addAll (NewRingBuffer 2) [7, 8] : RingBuffer Nat).len = 0 ∨
    (addAll (NewRingBuffer 2) [7, 8] : RingBuffer Nat).len
      = (addAll (NewRingBuffer 2) [7, 8] : RingBuffer Nat).buf.length :=
  claim_C9_cursor_zero_invariant Nat _
    (Reachable.add 8 (Reachable.add 7 (Reachable.new 2))) (by decide) (by decide)

/-- C10: `Take n` panics (modelled as `none`) at the `make([]T, n)`
allocation for every `n < 0`; under the precondition `n ≥ 0` it never
fails and returns a sequence of length between `0` and `n`. -/
theorem claim_C10_take_negative_panics (T : Type) [Inhabited T] (rb : RingBuffer T)
    (n : Int) :
    (n < 0 → rb.Take n = none) ∧
    (0 ≤ n → ∃ l : List T, rb.Take n = some l ∧ (l.length : Int) ≤ n) := by
  constructor
  · intro h
    simp [RingBuffer.Take, h]
  · intro h
    have hneg : ¬ n < 0 := by omega
    refine ⟨(rb.Copy (List.replicate n.toNat default)).1.take
        (rb.Copy (List.replicate n.toNat default)).2, ?_, ?_⟩
    · simp [RingBuffer.Take, hneg]
    · have h1 : (rb.Copy (List.replicate n.toNat default)).2 ≤ n.toNat := by
        have := copyLoop_idx_le rb.toList (List.replicate n.toNat default) 0 (by simp)
        simpa [RingBuffer.Copy] using this
      have h2 : ((rb.Copy (List.replicate n.toNat default)).1.take
          (rb.Copy (List.replicate n.toNat default)).2).length ≤ n.toNat := by
        simp only [List.length_take]
        omega
      omega

theorem claim_C10_witness :
    (addAll (NewRingBuffer 3) [1, 2] : RingBuffer Nat).Take (-1) = none :=
  (claim_C10_take_negative_panics Nat (addAll (NewRingBuffer 3) [1, 2]) (-1)).1 (by decide)

end RB
